import Mathlib

/-!
Shallow embedding of the balance-aggregation core of `eth-portfolio`
(`eth_portfolio/typing.py` and `eth_portfolio/address.py`).

Python `Decimal` values are modelled as exact rationals (`ℚ`); Python dicts
(including `DefaultDict` and the checksum-keyed variants) are modelled as
association lists over `String` keys with first-occurrence lookup, in-place
replacement on update and append on fresh insertion, which matches CPython
dict semantics (insertion order preserved, unique keys).  Python dict
equality `==` is extensional (same key set, equal values), which we model
with explicit `Equiv` relations.  Fallible code returns `Except`.
-/

/-- Errors of the core, per the spec's taxonomy: `invalidCategory` models the
`KeyError` raised by `WalletBalances.__validateitem`, `malformedBlock` models
the `AssertionError`s raised at the top of `PortfolioAddress._describe_async`. -/
inductive PErr where
  | malformedBlock : PErr
  | invalidCategory : String → PErr
deriving DecidableEq, Repr

/-- Money leaf. Embeds the `Balance` dataclass of `typing.py`: a pair of
`Decimal`s (`balance`, `usd_value`), modelled as rationals. -/
structure Balance where
  balance : ℚ
  usd_value : ℚ
deriving DecidableEq, Repr

namespace Balance

/-- Embeds `Balance()` with default field values (`Decimal()` is zero). -/
def zero : Balance := ⟨0, 0⟩

/-- Embeds `Balance.__bool__`: truthy iff either component is nonzero. -/
def isTruthy (b : Balance) : Bool := b.balance ≠ 0 || b.usd_value ≠ 0

/-- Embeds `Balance.__add__` (componentwise addition; the `Decimal`
additions cannot fail, so the `try`/`except` re-raise wrapper is inert). -/
def add (x y : Balance) : Balance := ⟨x.balance + y.balance, x.usd_value + y.usd_value⟩

theorem addComm (x y : Balance) : add x y = add y x := by
  simp only [add, mk.injEq]
  exact ⟨add_comm x.balance y.balance, add_comm x.usd_value y.usd_value⟩

theorem not_truthy_eq_zero {b : Balance} (h : isTruthy b = false) : b = zero := by
  cases b with
  | mk bb bu =>
    simp only [isTruthy, Bool.or_eq_false_iff, decide_eq_false_iff_not, not_not] at h
    simp [zero, h.1, h.2]

theorem zero_not_truthy : isTruthy zero = false := by
  simp [isTruthy, zero]

theorem addZeroLeft (b : Balance) : add zero b = b := by
  cases b; simp [add, zero]

theorem addZeroRight (b : Balance) : add b zero = b := by
  cases b; simp [add, zero]

end Balance

/-- Association-list model of a CPython dict with `String` keys: lookup finds
the first occurrence, update replaces in place, fresh insertion appends. -/
abbrev Dct (V : Type) := List (String × V)

namespace Dct

variable {V : Type}

/-- Dict lookup of the stored value, `none` when the key is absent. -/
def get? (m : Dct V) (k : String) : Option V :=
  match m with
  | [] => none
  | (k', v) :: t => if k' = k then some v else get? t k

/-- Dict lookup falling back to a default for a missing key. -/
def getD (m : Dct V) (k : String) (d : V) : V := (get? m k).getD d

/-- Embeds the `in` operator on dicts. -/
def contains (m : Dct V) (k : String) : Bool := (get? m k).isSome

/-- Embeds `d[k] = v`: replace the first occurrence in place, else append. -/
def set (m : Dct V) (k : String) (v : V) : Dct V :=
  match m with
  | [] => [(k, v)]
  | (k', v') :: t => if k' = k then (k, v) :: t else (k', v') :: set t k v

/-- Key list, in insertion order. -/
def keys (m : Dct V) : List String := m.map (·.1)

/-- Well-formedness invariant of every CPython dict: unique keys. -/
def WF (m : Dct V) : Prop := (keys m).Nodup

instance (m : Dct V) : Decidable (WF m) := by unfold WF; infer_instance

theorem get?_nil (k : String) : get? ([] : Dct V) k = none := rfl

theorem get?_set_self (m : Dct V) (k : String) (v : V) :
    get? (set m k v) k = some v := by
  induction m with
  | nil => simp [set, get?]
  | cons h t ih =>
    by_cases hk : h.1 = k
    · simp [set, hk, get?]
    · simp [set, hk, get?, ih]

theorem get?_set_ne (m : Dct V) {k k' : String} (v : V) (h : k' ≠ k) :
    get? (set m k v) k' = get? m k' := by
  induction m with
  | nil => simp [set, get?, Ne.symm h]
  | cons hd t ih =>
    by_cases hk : hd.1 = k
    · have hne : hd.1 ≠ k' := by rw [hk]; exact Ne.symm h
      simp [set, hk, get?, Ne.symm h, hne]
    · simp only [set, if_neg hk, get?]
      by_cases hk' : hd.1 = k'
      · simp [hk']
      · simp [hk', ih]

theorem get?_eq_some_of_mem {m : Dct V} (h : WF m) {k : String} {v : V}
    (hm : (k, v) ∈ m) : get? m k = some v := by
  induction m with
  | nil => cases hm
  | cons hd t ih =>
    simp only [WF, keys, List.map_cons, List.nodup_cons] at h
    rcases List.mem_cons.mp hm with h1 | h1
    · rw [← h1]; simp [get?]
    · have hk : hd.1 ≠ k := by
        intro he
        apply h.1
        rw [he]
        exact List.mem_map.mpr ⟨(k, v), h1, rfl⟩
      have ht : WF t := h.2
      simp [get?, hk, ih ht h1]

theorem mem_of_get?_eq_some {m : Dct V} {k : String} {v : V}
    (h : get? m k = some v) : (k, v) ∈ m := by
  induction m with
  | nil => simp [get?] at h
  | cons hd t ih =>
    by_cases hk : hd.1 = k
    · simp only [get?, if_pos hk] at h
      cases hd with
      | mk k0 v0 =>
        simp only at hk
        simp only [Option.some.injEq] at h
        exact List.mem_cons.mpr (Or.inl (by rw [hk, h]))
    · simp only [get?, if_neg hk] at h
      exact List.mem_cons.mpr (Or.inr (ih h))

theorem contains_iff (m : Dct V) (k : String) :
    contains m k = true ↔ ∃ v, get? m k = some v := by
  simp [contains, Option.isSome_iff_exists]

theorem keys_set (m : Dct V) (k : String) (v : V) :
    keys (set m k v) = if contains m k then keys m ++ [] else keys m ++ [k] := by
  induction m with
  | nil => simp [set, keys, contains, get?]
  | cons hd t ih =>
    by_cases hk : hd.1 = k
    · simp [set, hk, keys, contains, get?]
    · simp only [set, if_neg hk, keys, List.map_cons, contains, get?, if_neg hk]
      rw [show (set t k v).map (·.1) = keys (set t k v) from rfl]
      rw [ih]
      simp only [contains, keys]
      by_cases hc : (get? t k).isSome <;> simp [hc]

theorem contains_of_mem_keys {m : Dct V} {a : String} (h : a ∈ keys m) :
    contains m a = true := by
  induction m with
  | nil => cases h
  | cons hd t ih =>
    simp only [keys, List.map_cons, List.mem_cons] at h
    by_cases hk : hd.1 = a
    · simp [contains, get?, hk]
    · rcases h with h | h
      · exact absurd h.symm hk
      · have := ih h
        simp only [contains, get?, if_neg hk]
        exact this

theorem WF_set {m : Dct V} (h : WF m) (k : String) (v : V) :
    WF (set m k v) := by
  unfold WF
  rw [keys_set]
  by_cases hc : contains m k
  · simpa [hc] using h
  · simp only [hc, if_false]
    refine List.Nodup.append h (List.nodup_singleton k) ?_
    intro a ha hb
    simp only [List.mem_singleton] at hb
    subst hb
    exact hc (contains_of_mem_keys ha)

theorem set_set_same (m : Dct V) (k : String) (v v' : V) :
    set (set m k v) k v' = set m k v' := by
  induction m with
  | nil => simp [set]
  | cons hd t ih =>
    by_cases hk : hd.1 = k
    · simp [set, hk]
    · simp [set, hk, ih]

theorem getD_eq_of_get? {m : Dct V} {k : String} {v : V} (d : V)
    (h : get? m k = some v) : getD m k d = v := by
  simp [getD, h]

theorem getD_eq_default {m : Dct V} {k : String} (d : V)
    (h : get? m k = none) : getD m k d = d := by
  simp [getD, h]

end Dct

theorem Dct.mem_keys_of_get? {V : Type} {m : Dct V} {k : String} {v : V}
    (h : Dct.get? m k = some v) : k ∈ Dct.keys m :=
  List.mem_map.mpr ⟨(k, v), Dct.mem_of_get?_eq_some h, rfl⟩

theorem Dct.get?_eq_none_of_not_mem {V : Type} {m : Dct V} {k : String}
    (h : k ∉ Dct.keys m) : Dct.get? m k = none := by
  cases hg : Dct.get? m k with
  | none => rfl
  | some v => exact absurd (Dct.mem_keys_of_get? hg) h

/-- Embeds `TokenBalances` of `typing.py`: token address → `Balance`
(a `DefaultChecksumDict`; keys are modelled as already-canonical strings,
since no claim exercises two spellings of one address). -/
abbrev TokenBalances := Dct Balance

namespace TokenBalances

/-- Embeds `TokenBalances.__bool__` (`any(self.values())`). -/
def isTruthy (t : TokenBalances) : Bool := t.any (fun kv => Balance.isTruthy kv.2)

/-- Embeds `TokenBalances.sum_usd` (sum of `usd_value` over the values). -/
def sum_usd (t : TokenBalances) : ℚ := (t.map (fun kv => kv.2.usd_value)).sum

/-- First loop of `TokenBalances.__add__`: copy each truthy entry of `self`
into the fresh `combined` container (`Balance(balance.balance, balance.usd_value)`). -/
def copyFold (acc : TokenBalances) : TokenBalances → TokenBalances
  | [] => acc
  | kv :: t =>
      copyFold
        (if Balance.isTruthy kv.2 then
          Dct.set acc kv.1 (Balance.mk kv.2.balance kv.2.usd_value)
        else acc) t

/-- Second loop of `TokenBalances.__add__`: for each truthy entry of `other`,
add onto an existing key of `combined` or copy it in. -/
def mergeFold (acc : TokenBalances) : TokenBalances → TokenBalances
  | [] => acc
  | kv :: t =>
      mergeFold
        (if Balance.isTruthy kv.2 then
          (if Dct.contains acc kv.1 then
            Dct.set acc kv.1 (Balance.add (Dct.getD acc kv.1 Balance.zero) kv.2)
          else
            Dct.set acc kv.1 (Balance.mk kv.2.balance kv.2.usd_value))
        else acc) t

/-- Embeds `TokenBalances.__add__`: a fresh container populated by the two
loops; note there is no zero-pruning pass at the end (unlike `__sub__`). -/
def add (a b : TokenBalances) : TokenBalances := mergeFold (copyFold [] a) b

/-- Python dict equality `==` on TokenBalances: same keys, equal values. -/
def Equiv (a b : TokenBalances) : Prop := ∀ k, Dct.get? a k = Dct.get? b k

theorem copyFold_get? (l : TokenBalances) (hl : Dct.WF l) (acc : TokenBalances)
    (k : String) :
    Dct.get? (copyFold acc l) k =
      (match Dct.get? l k with
      | some v => if Balance.isTruthy v then some v else Dct.get? acc k
      | none => Dct.get? acc k) := by
  induction l generalizing acc with
  | nil => simp [copyFold, Dct.get?_nil]
  | cons hd t ih =>
    simp only [Dct.WF, Dct.keys, List.map_cons, List.nodup_cons] at hl
    have htr := ih hl.2
    by_cases hk : hd.1 = k
    · have hnone : Dct.get? t k = none := by
        apply Dct.get?_eq_none_of_not_mem
        rw [← hk]
        exact hl.1
      rw [copyFold, htr, hnone]
      simp only [Dct.get?, if_pos hk]
      by_cases htv : Balance.isTruthy hd.2
      · rw [if_pos htv, if_pos htv, ← hk, Dct.get?_set_self]
      · simp only [htv, if_false, Bool.false_eq_true]
    · have hstep :
          Dct.get?
            (if Balance.isTruthy hd.2 then
              Dct.set acc hd.1 (Balance.mk hd.2.balance hd.2.usd_value)
            else acc) k = Dct.get? acc k := by
        by_cases htv : Balance.isTruthy hd.2
        · rw [if_pos htv]
          exact Dct.get?_set_ne acc _ (fun he => hk he.symm)
        · rw [if_neg htv]
      rw [copyFold, htr, hstep]
      simp only [Dct.get?, if_neg hk]

theorem mergeFold_get? (l : TokenBalances) (hl : Dct.WF l) (acc : TokenBalances)
    (k : String) :
    Dct.get? (mergeFold acc l) k =
      (match Dct.get? l k with
      | some v =>
          if Balance.isTruthy v then
            (match Dct.get? acc k with
            | some w => some (Balance.add w v)
            | none => some v)
          else Dct.get? acc k
      | none => Dct.get? acc k) := by
  induction l generalizing acc with
  | nil => simp [mergeFold, Dct.get?_nil]
  | cons hd t ih =>
    simp only [Dct.WF, Dct.keys, List.map_cons, List.nodup_cons] at hl
    have htr := ih hl.2
    by_cases hk : hd.1 = k
    · have hnone : Dct.get? t k = none := by
        apply Dct.get?_eq_none_of_not_mem
        rw [← hk]
        exact hl.1
      rw [mergeFold, htr, hnone]
      simp only [Dct.get?, if_pos hk]
      by_cases htv : Balance.isTruthy hd.2
      · rw [if_pos htv, if_pos htv]
        cases hg : Dct.get? acc k with
        | some w =>
          have hc : Dct.contains acc hd.1 = true := by
            rw [hk, Dct.contains, hg]
            rfl
          rw [if_pos hc, ← hk, Dct.get?_set_self]
          rw [hk, Dct.getD_eq_of_get? Balance.zero hg]
        | none =>
          have hc : Dct.contains acc hd.1 = false := by
            rw [hk, Dct.contains, hg]
            rfl
          rw [hc]
          simp only [Bool.false_eq_true, if_false, ← hk, Dct.get?_set_self]
      · simp only [htv, if_false, Bool.false_eq_true]
    · have hstep :
          Dct.get?
            (if Balance.isTruthy hd.2 then
              (if Dct.contains acc hd.1 then
                Dct.set acc hd.1 (Balance.add (Dct.getD acc hd.1 Balance.zero) hd.2)
              else
                Dct.set acc hd.1 (Balance.mk hd.2.balance hd.2.usd_value))
            else acc) k = Dct.get? acc k := by
        by_cases htv : Balance.isTruthy hd.2
        · rw [if_pos htv]
          by_cases hc : Dct.contains acc hd.1
          · rw [if_pos hc]
            exact Dct.get?_set_ne acc _ (fun he => hk he.symm)
          · rw [if_neg hc]
            exact Dct.get?_set_ne acc _ (fun he => hk he.symm)
        · rw [if_neg htv]
      rw [mergeFold, htr, hstep]
      simp only [Dct.get?, if_neg hk]

/-- Lookup characterization of `TokenBalances.__add__`: a key is present in
the sum iff its entry is truthy in at least one input, and then it maps to
the componentwise sum of the two looked-up values (missing treated as zero).
Note zero-sum results of truthy entries are present, not pruned. -/
theorem add_get? (a b : TokenBalances) (ha : Dct.WF a) (hb : Dct.WF b)
    (k : String) :
    Dct.get? (add a b) k =
      (if Balance.isTruthy (Dct.getD a k Balance.zero)
          || Balance.isTruthy (Dct.getD b k Balance.zero) then
        some (Balance.add (Dct.getD a k Balance.zero) (Dct.getD b k Balance.zero))
      else none) := by
  rw [add, mergeFold_get? b hb _ k, copyFold_get? a ha [] k]
  cases hga : Dct.get? a k with
  | some w =>
    rw [Dct.getD_eq_of_get? Balance.zero hga]
    cases hgb : Dct.get? b k with
    | some v =>
      rw [Dct.getD_eq_of_get? Balance.zero hgb]
      by_cases htw : Balance.isTruthy w <;> by_cases htv : Balance.isTruthy v
      · simp [htw, htv]
      · have hzv := Balance.not_truthy_eq_zero (Bool.eq_false_iff.mpr htv)
        subst hzv
        simp [htw, Balance.zero_not_truthy, Balance.addZeroRight]
      · have hzw := Balance.not_truthy_eq_zero (Bool.eq_false_iff.mpr htw)
        subst hzw
        simp [htv, Balance.zero_not_truthy, Balance.addZeroLeft, Dct.get?_nil]
      · have hzw := Balance.not_truthy_eq_zero (Bool.eq_false_iff.mpr htw)
        have hzv := Balance.not_truthy_eq_zero (Bool.eq_false_iff.mpr htv)
        subst hzw
        subst hzv
        simp [Balance.zero_not_truthy, Dct.get?_nil]
    | none =>
      rw [Dct.getD_eq_default Balance.zero hgb]
      by_cases htw : Balance.isTruthy w
      · simp [htw, Balance.zero_not_truthy, Balance.addZeroRight]
      · have hzw := Balance.not_truthy_eq_zero (Bool.eq_false_iff.mpr htw)
        subst hzw
        simp [Balance.zero_not_truthy, Dct.get?_nil]
  | none =>
    rw [Dct.getD_eq_default Balance.zero hga]
    cases hgb : Dct.get? b k with
    | some v =>
      rw [Dct.getD_eq_of_get? Balance.zero hgb]
      by_cases htv : Balance.isTruthy v
      · simp [htv, Balance.zero_not_truthy, Dct.get?_nil, Balance.addZeroLeft]
      · have hzv := Balance.not_truthy_eq_zero (Bool.eq_false_iff.mpr htv)
        subst hzv
        simp [Balance.zero_not_truthy, Dct.get?_nil]
    | none =>
      rw [Dct.getD_eq_default Balance.zero hgb]
      simp [Balance.zero_not_truthy, Dct.get?_nil]

end TokenBalances

/-- C6: for every pair of TokenBalances `a` and `b` (well-formed, as every
Python dict is: unique keys), `add(a, b)` equals `add(b, a)` under Python
dict equality (same key set, equal values). -/
theorem claim6_tokenBalances_add_comm (a b : TokenBalances)
    (ha : Dct.WF a) (hb : Dct.WF b) :
    TokenBalances.Equiv (TokenBalances.add a b) (TokenBalances.add b a) := by
  intro k
  rw [TokenBalances.add_get? a b ha hb k, TokenBalances.add_get? b a hb ha k,
    Bool.or_comm, Balance.addComm]

theorem claim6_tokenBalances_add_comm_witness :
    Dct.WF [("TOK", Balance.mk 5 50)] ∧
    Dct.WF [("TOK2", Balance.mk 1 2), ("TOK", Balance.mk 3 4)] ∧
    TokenBalances.Equiv
      (TokenBalances.add [("TOK", Balance.mk 5 50)]
        [("TOK2", Balance.mk 1 2), ("TOK", Balance.mk 3 4)])
      (TokenBalances.add [("TOK2", Balance.mk 1 2), ("TOK", Balance.mk 3 4)]
        [("TOK", Balance.mk 5 50)]) :=
  ⟨by decide, by decide,
    claim6_tokenBalances_add_comm _ _ (by decide) (by decide)⟩

/-- C3 counterexample: on the spec's own example,
`add({TOK: Money(5,50)}, {TOK: Money(-5,-50)})` leaves the key `TOK` present
and bound to a zero Balance — `TokenBalances.__add__` has no pruning pass
(unlike `__sub__`) — whereas the claim says the key must be absent. -/
theorem claim3_counterexample :
    Dct.contains
      (TokenBalances.add [("TOK", Balance.mk 5 50)]
        [("TOK", Balance.mk (-5) (-50))]) "TOK" = true ∧
    Dct.get?
      (TokenBalances.add [("TOK", Balance.mk 5 50)]
        [("TOK", Balance.mk (-5) (-50))]) "TOK" = some (Balance.mk 0 0) := by
  constructor
  · decide
  · norm_num [TokenBalances.add, TokenBalances.copyFold, TokenBalances.mergeFold,
      Dct.set, Dct.get?, Dct.getD, Dct.contains, Balance.isTruthy, Balance.add]

/-- C3 amended: `add(c1, c2)` contains exactly the keys whose entry is
non-zero (truthy) in at least one input, each mapped to
`c1.get(k) + c2.get(k)`; keys that are zero or absent in both inputs are
absent, but a key whose individually non-zero values sum to zero remains
present, bound to a zero value (no pruning of zero sums). -/
theorem claim3_amended_add_char (c1 c2 : TokenBalances)
    (h1 : Dct.WF c1) (h2 : Dct.WF c2) (k : String) :
    Dct.get? (TokenBalances.add c1 c2) k =
      (if Balance.isTruthy (Dct.getD c1 k Balance.zero)
          || Balance.isTruthy (Dct.getD c2 k Balance.zero) then
        some (Balance.add (Dct.getD c1 k Balance.zero)
          (Dct.getD c2 k Balance.zero))
      else none) :=
  TokenBalances.add_get? c1 c2 h1 h2 k

theorem claim3_amended_witness :
    Dct.WF [("TOK", Balance.mk 5 50)] ∧
    Dct.WF [("TOK", Balance.mk (-5) (-50))] ∧
    Dct.get?
      (TokenBalances.add [("TOK", Balance.mk 5 50)]
        [("TOK", Balance.mk (-5) (-50))]) "TOK" =
      (if Balance.isTruthy
            (Dct.getD [("TOK", Balance.mk 5 50)] "TOK" Balance.zero)
          || Balance.isTruthy
            (Dct.getD [("TOK", Balance.mk (-5) (-50))] "TOK" Balance.zero) then
        some (Balance.add
          (Dct.getD [("TOK", Balance.mk 5 50)] "TOK" Balance.zero)
          (Dct.getD [("TOK", Balance.mk (-5) (-50))] "TOK" Balance.zero))
      else none) :=
  ⟨by decide, by decide,
    claim3_amended_add_char _ _ (by decide) (by decide) "TOK"⟩

theorem Dct.set_eq_append_of_none {V : Type} {m : Dct V} {k : String}
    (h : Dct.get? m k = none) (v : V) : Dct.set m k v = m ++ [(k, v)] := by
  induction m with
  | nil => rfl
  | cons hd t ih =>
    by_cases hk : hd.1 = k
    · rw [Dct.get?, if_pos hk] at h
      cases h
    · rw [Dct.get?, if_neg hk] at h
      simp [Dct.set, hk, ih h]

/-- Embeds `WalletBalances` of `typing.py`: category label → `TokenBalances`
(a `DefaultDict` whose reads and writes are validated). -/
abbrev WalletBalances := Dct TokenBalances

namespace WalletBalances

/-- Embeds `WalletBalances.__validateitem`: only `assets` and `debt` are
legal category keys. -/
def validateItem (k : String) : Bool := k = "assets" || k = "debt"

/-- Embeds `WalletBalances.__setitem__`: validate, then store. The
`KeyError` raised by `__validateitem` is the spec's `InvalidCategory`. -/
def setItem (wb : WalletBalances) (k : String) (v : TokenBalances) :
    Except PErr WalletBalances :=
  if validateItem k then .ok (Dct.set wb k v) else .error (.invalidCategory k)

/-- Embeds `WalletBalances.__getitem__`: validate, then the `DefaultDict`
lookup, which on a miss stores and returns a fresh empty `TokenBalances`.
Returns the value together with the (possibly grown) container. -/
def getItem (wb : WalletBalances) (k : String) :
    Except PErr (TokenBalances × WalletBalances) :=
  if validateItem k then
    match Dct.get? wb k with
    | some v => .ok (v, wb)
    | none => .ok ([], Dct.set wb k [])
  else .error (.invalidCategory k)

/-- Embeds `WalletBalances.__bool__` (`any(self.values())`). -/
def isTruthy (wb : WalletBalances) : Bool :=
  wb.any (fun kv => TokenBalances.isTruthy kv.2)

/-- Embeds `WalletBalances.sum_usd`: assets total minus debt total. The
`assets`/`debt` properties read through `__getitem__`, whose value on a miss
is the empty default, modelled by a defaulted lookup. -/
def sum_usd (wb : WalletBalances) : ℚ :=
  TokenBalances.sum_usd (Dct.getD wb "assets" [])
    - TokenBalances.sum_usd (Dct.getD wb "debt" [])

end WalletBalances

/-- Embeds the `DefaultChecksumDict` missing-key read used by
`TokenBalances` (the `checksum_dict` dependency is a defaultdict over
canonicalized keys): a read of an absent token stores and returns the zero
default `Balance()`. -/
def TokenBalances.getItemIns (t : TokenBalances) (k : String) :
    Balance × TokenBalances :=
  match Dct.get? t k with
  | some v => (v, t)
  | none => (Balance.zero, Dct.set t k Balance.zero)

/-- C7: every read or write of a `WalletBalances` under a category key other
than `assets`/`debt` fails with `InvalidCategory` (in particular writing
`collateral`), while reads and writes under `assets`/`debt` always succeed
(a read of a missing valid key default-constructs instead of failing). -/
theorem claim7_category_validation (wb : WalletBalances) (k : String)
    (v : TokenBalances) :
    WalletBalances.setItem wb k v =
      (if k = "assets" ∨ k = "debt" then .ok (Dct.set wb k v)
      else .error (.invalidCategory k)) ∧
    WalletBalances.getItem wb k =
      (if k = "assets" ∨ k = "debt" then
        .ok (Dct.getD wb k [],
          if Dct.contains wb k then wb else Dct.set wb k [])
      else .error (.invalidCategory k)) ∧
    WalletBalances.setItem wb "collateral" v =
      .error (.invalidCategory "collateral") := by
  have hval : (WalletBalances.validateItem k = true) ↔ (k = "assets" ∨ k = "debt") := by
    simp [WalletBalances.validateItem]
  refine ⟨?_, ?_, rfl⟩
  · by_cases hk : k = "assets" ∨ k = "debt"
    · rw [WalletBalances.setItem, if_pos (hval.mpr hk), if_pos hk]
    · rw [WalletBalances.setItem, if_neg (fun hc => hk (hval.mp hc)), if_neg hk]
  · by_cases hk : k = "assets" ∨ k = "debt"
    · rw [WalletBalances.getItem, if_pos (hval.mpr hk), if_pos hk]
      cases hg : Dct.get? wb k with
      | some tv =>
        have hc : Dct.contains wb k = true := by
          rw [Dct.contains, hg]
          rfl
        rw [if_pos hc, Dct.getD_eq_of_get? [] hg]
      | none =>
        have hc : Dct.contains wb k = false := by
          rw [Dct.contains, hg]
          rfl
        rw [Dct.getD_eq_default [] hg, hc]
        simp
    · rw [WalletBalances.getItem, if_neg (fun hc => hk (hval.mp hc)), if_neg hk]

/-- C9: `WalletBalances.sum_usd` nets assets against debt — it equals the
assets total minus the debt total, with debt stored as positive magnitudes
and subtracted only here; on the spec's example wallet the net value is 80. -/
theorem claim9_sum_usd_nets_debt :
    (∀ wb : WalletBalances,
      WalletBalances.sum_usd wb =
        TokenBalances.sum_usd (Dct.getD wb "assets" [])
          - TokenBalances.sum_usd (Dct.getD wb "debt" [])) ∧
    WalletBalances.sum_usd
      [("assets", [("TOK", Balance.mk 10 100)]),
        ("debt", [("TOK2", Balance.mk 2 20)])] = 80 := by
  constructor
  · intro wb
    rfl
  · have ha : Dct.getD
        [("assets", [("TOK", Balance.mk 10 100)]),
          ("debt", [("TOK2", Balance.mk 2 20)])] "assets" ([] : TokenBalances)
        = [("TOK", Balance.mk 10 100)] := by decide
    have hd : Dct.getD
        [("assets", [("TOK", Balance.mk 10 100)]),
          ("debt", [("TOK2", Balance.mk 2 20)])] "debt" ([] : TokenBalances)
        = [("TOK2", Balance.mk 2 20)] := by decide
    rw [WalletBalances.sum_usd, ha, hd]
    norm_num [TokenBalances.sum_usd]

/-- C10: a read of a missing valid key of a keyed container returns the zero
value of the level below but also inserts it: the key set is mutated (the
key becomes present, bound to the empty default), while truthiness and the
usd sum are unchanged. Shown at both the category level (`WalletBalances`,
a `DefaultDict`) and the token level (`TokenBalances`, a
`DefaultChecksumDict` with `Balance` default). -/
theorem claim10_missing_read_inserts (wb : WalletBalances)
    (t : TokenBalances) (k tok : String)
    (hk : k = "assets" ∨ k = "debt")
    (hmiss : Dct.get? wb k = none)
    (htmiss : Dct.get? t tok = none) :
    WalletBalances.getItem wb k = .ok ([], Dct.set wb k []) ∧
    Dct.contains wb k = false ∧
    Dct.contains (Dct.set wb k []) k = true ∧
    WalletBalances.isTruthy (Dct.set wb k []) = WalletBalances.isTruthy wb ∧
    WalletBalances.sum_usd (Dct.set wb k []) = WalletBalances.sum_usd wb ∧
    TokenBalances.getItemIns t tok = (Balance.zero, Dct.set t tok Balance.zero) ∧
    Dct.contains t tok = false ∧
    Dct.contains (Dct.set t tok Balance.zero) tok = true ∧
    TokenBalances.isTruthy (Dct.set t tok Balance.zero) = TokenBalances.isTruthy t ∧
    TokenBalances.sum_usd (Dct.set t tok Balance.zero) = TokenBalances.sum_usd t := by
  have hvk : WalletBalances.validateItem k = true := by
    rcases hk with hk | hk <;> rw [hk] <;> rfl
  refine ⟨?_, ?_, ?_, ?_, ?_, ?_, ?_, ?_, ?_, ?_⟩
  · rw [WalletBalances.getItem, if_pos hvk, hmiss]
  · rw [Dct.contains, hmiss]
    rfl
  · rw [Dct.contains, Dct.get?_set_self]
    rfl
  · rw [Dct.set_eq_append_of_none hmiss]
    rw [WalletBalances.isTruthy, WalletBalances.isTruthy, List.any_append]
    simp [TokenBalances.isTruthy]
  · rw [WalletBalances.sum_usd, WalletBalances.sum_usd]
    rcases hk with hk | hk
    · subst hk
      rw [Dct.getD_eq_of_get? [] (Dct.get?_set_self wb "assets" []),
        Dct.getD_eq_default [] hmiss,
        Dct.getD, Dct.get?_set_ne wb ([] : TokenBalances) (by decide),
        Dct.getD]
    · subst hk
      rw [Dct.getD_eq_of_get? [] (Dct.get?_set_self wb "debt" []),
        Dct.getD_eq_default [] hmiss,
        Dct.getD, Dct.get?_set_ne wb ([] : TokenBalances) (by decide),
        Dct.getD]
  · rw [TokenBalances.getItemIns, htmiss]
  · rw [Dct.contains, htmiss]
    rfl
  · rw [Dct.contains, Dct.get?_set_self]
    rfl
  · rw [Dct.set_eq_append_of_none htmiss]
    rw [TokenBalances.isTruthy, TokenBalances.isTruthy, List.any_append]
    simp [Balance.zero_not_truthy]
  · rw [Dct.set_eq_append_of_none htmiss]
    rw [TokenBalances.sum_usd, TokenBalances.sum_usd, List.map_append]
    simp [Balance.zero]

theorem claim10_missing_read_inserts_witness :
    ((("assets" : String) = "assets" ∨ ("assets" : String) = "debt") ∧
      Dct.get? [("debt", [("X", Balance.mk 1 2)])] "assets" = none ∧
      Dct.get? [("A", Balance.mk 3 4)] "B" = none) ∧
    (WalletBalances.getItem [("debt", [("X", Balance.mk 1 2)])] "assets" =
        .ok ([], Dct.set [("debt", [("X", Balance.mk 1 2)])] "assets" []) ∧
      Dct.contains [("debt", [("X", Balance.mk 1 2)])] "assets" = false ∧
      Dct.contains (Dct.set [("debt", [("X", Balance.mk 1 2)])] "assets" []) "assets" = true ∧
      WalletBalances.isTruthy (Dct.set [("debt", [("X", Balance.mk 1 2)])] "assets" []) =
        WalletBalances.isTruthy [("debt", [("X", Balance.mk 1 2)])] ∧
      WalletBalances.sum_usd (Dct.set [("debt", [("X", Balance.mk 1 2)])] "assets" []) =
        WalletBalances.sum_usd [("debt", [("X", Balance.mk 1 2)])] ∧
      TokenBalances.getItemIns [("A", Balance.mk 3 4)] "B" =
        (Balance.zero, Dct.set [("A", Balance.mk 3 4)] "B" Balance.zero) ∧
      Dct.contains [("A", Balance.mk 3 4)] "B" = false ∧
      Dct.contains (Dct.set [("A", Balance.mk 3 4)] "B" Balance.zero) "B" = true ∧
      TokenBalances.isTruthy (Dct.set [("A", Balance.mk 3 4)] "B" Balance.zero) =
        TokenBalances.isTruthy [("A", Balance.mk 3 4)] ∧
      TokenBalances.sum_usd (Dct.set [("A", Balance.mk 3 4)] "B" Balance.zero) =
        TokenBalances.sum_usd [("A", Balance.mk 3 4)]) :=
  ⟨⟨Or.inl rfl, by decide, by decide⟩,
    claim10_missing_read_inserts _ _ _ _ (Or.inl rfl) (by decide) (by decide)⟩

/-- Argument passed as `block` to `describe`. Python is untyped: the asserts
at the top of `_describe_async` check truthiness (`assert block`) and then
`isinstance(block, int)`. A non-integer argument fails one of the two
asserts whether it is truthy (fails the isinstance assert) or falsy (fails
the truthiness assert); an integer fails only when it is zero (falsy). -/
inductive BlockArg where
  | intVal : ℤ → BlockArg
  | nonInt : BlockArg
deriving DecidableEq, Repr

/-- Embeds the two `assert` statements of `PortfolioAddress._describe_async`;
the `AssertionError` they raise is the spec's `MalformedBlock` condition. -/
def validateBlock : BlockArg → Except PErr Unit
  | .intVal z => if z = 0 then .error .malformedBlock else .ok ()
  | .nonInt => .error .malformedBlock

/-- Sentinel native-asset key: `EEE_ADDRESS` from `y.constants`. -/
def EEE_ADDRESS : String := "0xEeeeeEeeeEeEeeEeEeEeeEEEeeeeEeeeeeeeEEeE"

/-- Embeds `RemoteTokenBalances` of `typing.py`: protocol label →
`TokenBalances`. -/
abbrev RemoteTokenBalances := Dct TokenBalances

/-- Modelled from the spec: the protocol-level sum `staked + collateral`
computed by `_external_balances_async`. The container class the protocol
collaborators (`eth_portfolio.protocols`) return is not among the sources;
per spec section 6 the orchestrator treats all protocol modules uniformly
and sums their results, modelled as a keywise `TokenBalances` sum. -/
def remoteAdd (a b : RemoteTokenBalances) : RemoteTokenBalances :=
  List.foldl
    (fun acc kv => Dct.set acc kv.1
      (TokenBalances.add (Dct.getD acc kv.1 []) kv.2)) a b

/-- Value stored in the snapshot `WalletBalances`: Python is untyped, so the
tuple assignment in `_describe_async` stores a `TokenBalances` under
`assets` but protocol-keyed `RemoteTokenBalances` dicts under `debt` and
`external`. -/
inductive SnapVal where
  | tokens : TokenBalances → SnapVal
  | remote : RemoteTokenBalances → SnapVal
deriving DecidableEq

/-- Embeds `WalletBalances.__setitem__` at `SnapVal` value type (validation
is value-independent). -/
def setItemSnap (wb : Dct SnapVal) (k : String) (v : SnapVal) :
    Except PErr (Dct SnapVal) :=
  if WalletBalances.validateItem k then .ok (Dct.set wb k v)
  else .error (.invalidCategory k)

/-- Embeds `PortfolioAddress._balances_async` after its join: the native
balance is folded into the token balances under the `EEE_ADDRESS`
pseudo-token key (`token_balances[EEE_ADDRESS] = eth_balance`). -/
def balancesMerge (ethBalance : Balance) (tokenBalances : TokenBalances) :
    TokenBalances :=
  Dct.set tokenBalances EEE_ADDRESS ethBalance

/-- Embeds `PortfolioAddress._describe_async` once every sub-request has
resolved. The five collaborator results (native balance, token balances,
debt, staking, collateral) are parameters, since they come from external
chain lookups. After the asserts, the gathered triple
(`_assets_async`, `_debt_async`, `_external_balances_async`) is unpacked by
the tuple assignment
`balances['assets'], balances['debt'], balances['external'] = ...`,
each store going through the validated `WalletBalances.__setitem__`. -/
def describeMerge (block : BlockArg) (ethR : Balance) (tokR : TokenBalances)
    (debtR stakR collR : RemoteTokenBalances) : Except PErr (Dct SnapVal) :=
  match validateBlock block with
  | .error e => .error e
  | .ok _ =>
    match setItemSnap [] "assets" (.tokens (balancesMerge ethR tokR)) with
    | .error e => .error e
    | .ok wb1 =>
      match setItemSnap wb1 "debt" (.remote debtR) with
      | .error e => .error e
      | .ok wb2 =>
        match setItemSnap wb2 "external" (.remote (remoteAdd stakR collR)) with
        | .error e => .error e
        | .ok wb3 => .ok wb3

/-- C1 (code bug): for every valid block and any collaborator results, the
snapshot orchestrator raises `InvalidCategory` for the key `external`
instead of returning an assets/debt `WalletBalances`: `_describe_async`
assigns `balances['external']`, a key its own `WalletBalances` container
rejects, so `describe` can never return the claimed two-category value. -/
theorem claim1_describe_always_raises (block : BlockArg) (ethR : Balance)
    (tokR : TokenBalances) (debtR stakR collR : RemoteTokenBalances)
    (hb : validateBlock block = .ok ()) :
    describeMerge block ethR tokR debtR stakR collR =
      .error (.invalidCategory "external") := by
  rw [describeMerge, hb]
  rfl

theorem claim1_describe_always_raises_witness :
    validateBlock (BlockArg.intVal 1) = .ok () ∧
    describeMerge (BlockArg.intVal 1) (Balance.mk 1 2) [] [] [] [] =
      .error (.invalidCategory "external") :=
  ⟨rfl,
    claim1_describe_always_raises (BlockArg.intVal 1) (Balance.mk 1 2)
      [] [] [] [] rfl⟩

/-- C4 counterexample: a negative integral block height passes both asserts
(a negative int is truthy and an instance of `int`), so `describe(wallet,
-1)` does not fail fast with `MalformedBlock`: it issues the fan-out and
ends in the `InvalidCategory` failure of the merge instead. -/
theorem claim4_counterexample :
    validateBlock (BlockArg.intVal (-1)) = .ok () ∧
    describeMerge (BlockArg.intVal (-1)) (Balance.mk 1 2) [] [] [] [] ≠
      .error .malformedBlock := by
  constructor
  · rfl
  · have hv : describeMerge (BlockArg.intVal (-1)) (Balance.mk 1 2) [] [] [] [] =
        .error (.invalidCategory "external") := rfl
    rw [hv]
    simp

/-- C4 amended: the validation at the head of a snapshot request raises
`MalformedBlock` exactly for a zero (falsy) integral block or a non-integer
block argument; a negative integral block passes validation and the fan-out
is issued. -/
theorem claim4_amended_block_validation :
    validateBlock (BlockArg.intVal 0) = .error .malformedBlock ∧
    validateBlock BlockArg.nonInt = .error .malformedBlock ∧
    (∀ z : ℤ, z ≠ 0 → validateBlock (BlockArg.intVal z) = .ok ()) := by
  refine ⟨rfl, rfl, ?_⟩
  intro z hz
  rw [validateBlock, if_neg hz]

theorem claim4_amended_block_validation_witness :
    ((-1 : ℤ) ≠ 0) ∧ validateBlock (BlockArg.intVal (-1)) = .ok () := by
  constructor
  · decide
  · have h := claim4_amended_block_validation
    exact h.2.2 (-1) (by decide)

/-- The five concurrent leaf sub-requests a snapshot fans out to: native
balance, token balances, debt, staking, collateral (the latter two joined
inside `_external_balances_async`, the first two inside `_balances_async`,
all transitively joined by the `asyncio.gather` of `_describe_async`). -/
inductive SubReq where
  | eth | tok | debt | stak | coll
deriving DecidableEq, Repr

/-- Join state of the five concurrent sub-requests: each slot is `none`
until the corresponding request completes. -/
structure SnapSlots where
  eth : Option Balance
  tok : Option TokenBalances
  debt : Option RemoteTokenBalances
  stak : Option RemoteTokenBalances
  coll : Option RemoteTokenBalances

/-- One completion event: request `i` finishes and deposits its (fixed)
result into the slot of the request that issued it. -/
def fillSlot (ethR : Balance) (tokR : TokenBalances)
    (debtR stakR collR : RemoteTokenBalances) (s : SnapSlots) :
    SubReq → SnapSlots
  | .eth => { s with eth := some ethR }
  | .tok => { s with tok := some tokR }
  | .debt => { s with debt := some debtR }
  | .stak => { s with stak := some stakR }
  | .coll => { s with coll := some collR }

/-- The join performed by `asyncio.gather`: completion events are processed
in arrival order, each landing in its issue slot, so the joined tuple is
keyed by issue position, not by arrival position. -/
def gatherSlots (ethR : Balance) (tokR : TokenBalances)
    (debtR stakR collR : RemoteTokenBalances) (order : List SubReq) :
    SnapSlots :=
  List.foldl (fillSlot ethR tokR debtR stakR collR)
    ⟨none, none, none, none, none⟩ order

/-- A run of the snapshot orchestrator under a given completion order of the
five sub-requests: join, then merge. `none` signals an incomplete join,
impossible when the order is a genuine permutation of the five requests. -/
def describeRun (block : BlockArg) (ethR : Balance) (tokR : TokenBalances)
    (debtR stakR collR : RemoteTokenBalances) (order : List SubReq) :
    Option (Except PErr (Dct SnapVal)) :=
  match gatherSlots ethR tokR debtR stakR collR order with
  | ⟨some e, some t, some d, some s, some c⟩ =>
      some (describeMerge block e t d s c)
  | _ => none

/-- Issue order of the five sub-requests. -/
def allSubReqs : List SubReq :=
  [SubReq.eth, SubReq.tok, SubReq.debt, SubReq.stak, SubReq.coll]

theorem foldl_fillSlot (ethR : Balance) (tokR : TokenBalances)
    (debtR stakR collR : RemoteTokenBalances) (order : List SubReq)
    (s : SnapSlots) :
    List.foldl (fillSlot ethR tokR debtR stakR collR) s order =
      ⟨if SubReq.eth ∈ order then some ethR else s.eth,
        if SubReq.tok ∈ order then some tokR else s.tok,
        if SubReq.debt ∈ order then some debtR else s.debt,
        if SubReq.stak ∈ order then some stakR else s.stak,
        if SubReq.coll ∈ order then some collR else s.coll⟩ := by
  induction order generalizing s with
  | nil => simp
  | cons i rest ih =>
    rw [List.foldl_cons, ih]
    cases i <;> simp [fillSlot, List.mem_cons]

theorem describeRun_eq_of_perm (block : BlockArg) (ethR : Balance)
    (tokR : TokenBalances) (debtR stakR collR : RemoteTokenBalances)
    (order : List SubReq) (h : order.Perm allSubReqs) :
    describeRun block ethR tokR debtR stakR collR order =
      some (describeMerge block ethR tokR debtR stakR collR) := by
  have hmem : ∀ r : SubReq, r ∈ order := by
    intro r
    rw [h.mem_iff]
    cases r <;> simp [allSubReqs]
  rw [describeRun, gatherSlots, foldl_fillSlot]
  simp [hmem]

/-- C2: for fixed results of the five collaborator sub-lookups, the outcome
of the snapshot orchestrator is identical for every permutation of the
completion order of the concurrent sub-requests: two runs differing only in
arrival order produce equal outputs. (`asyncio.gather` keys results by issue
position, and the merge runs strictly after the join.) -/
theorem claim2_completion_order_determinism (block : BlockArg)
    (ethR : Balance) (tokR : TokenBalances)
    (debtR stakR collR : RemoteTokenBalances) (o1 o2 : List SubReq)
    (h1 : o1.Perm allSubReqs) (h2 : o2.Perm allSubReqs) :
    describeRun block ethR tokR debtR stakR collR o1 =
      describeRun block ethR tokR debtR stakR collR o2 := by
  rw [describeRun_eq_of_perm block ethR tokR debtR stakR collR o1 h1,
    describeRun_eq_of_perm block ethR tokR debtR stakR collR o2 h2]

theorem claim2_completion_order_determinism_witness :
    List.Perm [SubReq.coll, SubReq.stak, SubReq.debt, SubReq.tok, SubReq.eth]
      allSubReqs ∧
    List.Perm allSubReqs allSubReqs ∧
    describeRun (BlockArg.intVal 7) (Balance.mk 1 2) [("T", Balance.mk 3 4)]
      [] [] []
      [SubReq.coll, SubReq.stak, SubReq.debt, SubReq.tok, SubReq.eth] =
      describeRun (BlockArg.intVal 7) (Balance.mk 1 2) [("T", Balance.mk 3 4)]
        [] [] [] allSubReqs :=
  ⟨by decide, by decide,
    claim2_completion_order_determinism (BlockArg.intVal 7) (Balance.mk 1 2)
      [("T", Balance.mk 3 4)] [] [] [] _ _ (by decide) (by decide)⟩

/-- Round a rational to the nearest integer with ties to even — the
`ROUND_HALF_EVEN` mode Python `Decimal` uses by default. -/
def roundHalfEven (x : ℚ) : ℤ :=
  if x - ((Int.floor x : ℤ) : ℚ) < 1 / 2 then Int.floor x
  else if 1 / 2 < x - ((Int.floor x : ℤ) : ℚ) then Int.floor x + 1
  else if Even (Int.floor x) then Int.floor x else Int.floor x + 1

/-- Embeds Python `round(value, 18)` on an exact `Decimal` under the default
context: quantize to exponent -18 with ties to even; `InvalidOperation`
(modelled as `none`) when the quantized coefficient would exceed the default
28-digit context precision — i.e. when the value keeps fewer than 18
fractional digits of precision within 28 significant digits. -/
def decimalRound18 (v : ℚ) : Option ℚ :=
  if (roundHalfEven (v * 10 ^ 18)).natAbs < 10 ^ 28 then
    some (((roundHalfEven (v * 10 ^ 18) : ℤ) : ℚ) / 10 ^ 18)
  else none

/-- Embeds `_calc_value` of `address.py`: an absent price yields value zero;
otherwise the exact product is rounded to 18 fractional digits, except that
when rounding raises `InvalidOperation` the exact product is returned. -/
def calcValue (balance : ℚ) (price : Option ℚ) : ℚ :=
  match price with
  | none => 0
  | some p => (decimalRound18 (balance * p)).getD (balance * p)

/-- Embeds the `Balance(Decimal(balance), _calc_value(balance, price))`
construction of `_token_balances_async`. -/
def mkTokenBalance (balance : ℚ) (price : Option ℚ) : Balance :=
  Balance.mk balance (calcValue balance price)

theorem roundHalfEven_close (x : ℚ) :
    |((roundHalfEven x : ℤ) : ℚ) - x| ≤ 1 / 2 := by
  have hfl : ((Int.floor x : ℤ) : ℚ) ≤ x := Int.floor_le x
  have hfu : x < ((Int.floor x : ℤ) : ℚ) + 1 := Int.lt_floor_add_one x
  rw [roundHalfEven]
  by_cases h1 : x - ((Int.floor x : ℤ) : ℚ) < 1 / 2
  · rw [if_pos h1, abs_le]
    constructor <;> linarith
  · rw [if_neg h1]
    by_cases h2 : 1 / 2 < x - ((Int.floor x : ℤ) : ℚ)
    · rw [if_pos h2, abs_le]
      push_cast
      constructor <;> linarith
    · rw [if_neg h2]
      have hr : x - ((Int.floor x : ℤ) : ℚ) = 1 / 2 :=
        le_antisymm (not_lt.mp h2) (not_lt.mp h1)
      by_cases h3 : Even (Int.floor x)
      · rw [if_pos h3, abs_le]
        constructor <;> linarith
      · rw [if_neg h3, abs_le]
        push_cast
        constructor <;> linarith

/-- C8: price application is total and never propagates a failure. With an
absent price the value is zero and the amount is preserved. With a present
price the amount is preserved and the value is `round(amount * price, 18)`
— half-even quantization of the exact product to 18 fractional digits,
within half an ulp of the product — except that when the quantized
coefficient does not fit the 28-digit context (the product would keep fewer
than 18 fractional digits of precision) rounding is skipped and the exact
product is returned. -/
theorem claim8_price_application :
    (∀ a : ℚ, calcValue a none = 0 ∧ mkTokenBalance a none = Balance.mk a 0) ∧
    (∀ a p : ℚ, (mkTokenBalance a (some p)).balance = a) ∧
    (∀ a p r : ℚ, decimalRound18 (a * p) = some r → calcValue a (some p) = r) ∧
    (∀ a p : ℚ, decimalRound18 (a * p) = none → calcValue a (some p) = a * p) ∧
    (∀ v r : ℚ, decimalRound18 v = some r →
      r = ((roundHalfEven (v * 10 ^ 18) : ℤ) : ℚ) / 10 ^ 18 ∧
      |r - v| ≤ 1 / (2 * 10 ^ 18)) := by
  refine ⟨fun a => ⟨rfl, rfl⟩, fun a p => rfl, ?_, ?_, ?_⟩
  · intro a p r h
    rw [calcValue, h]
    rfl
  · intro a p h
    rw [calcValue, h]
    rfl
  · intro v r h
    rw [decimalRound18] at h
    by_cases hc : (roundHalfEven (v * 10 ^ 18)).natAbs < 10 ^ 28
    · rw [if_pos hc, Option.some.injEq] at h
      refine ⟨h.symm, ?_⟩
      rw [← h]
      have hne : (10 : ℚ) ^ 18 ≠ 0 := by norm_num
      have hpos : (0 : ℚ) < 10 ^ 18 := by norm_num
      have hdiff : ((roundHalfEven (v * 10 ^ 18) : ℤ) : ℚ) / 10 ^ 18 - v =
          (((roundHalfEven (v * 10 ^ 18) : ℤ) : ℚ) - v * 10 ^ 18) / 10 ^ 18 := by
        field_simp
        ring
      rw [hdiff, abs_div, abs_of_pos hpos]
      have hclose := roundHalfEven_close (v * 10 ^ 18)
      rw [div_le_div_iff₀ hpos (by norm_num : (0 : ℚ) < 2 * 10 ^ 18)]
      calc |((roundHalfEven (v * 10 ^ 18) : ℤ) : ℚ) - v * 10 ^ 18| * (2 * 10 ^ 18)
          ≤ (1 / 2) * (2 * 10 ^ 18) := by
            apply mul_le_mul_of_nonneg_right hclose
            norm_num
        _ = 1 * 10 ^ 18 := by ring
    · rw [if_neg hc] at h
      cases h

theorem claim8_price_application_witness :
    decimalRound18 ((0 : ℚ) * 1) = some 0 ∧
    calcValue 0 (some 1) = 0 ∧
    ((0 : ℚ) = ((roundHalfEven ((0 : ℚ) * 10 ^ 18) : ℤ) : ℚ) / 10 ^ 18 ∧
      |(0 : ℚ) - 0| ≤ 1 / (2 * 10 ^ 18)) := by
  have h0 : decimalRound18 ((0 : ℚ) * 1) = some 0 := by
    have hz : ((0 : ℚ) * 1) * 10 ^ 18 = 0 := by norm_num
    rw [decimalRound18, hz]
    have hr : roundHalfEven (0 : ℚ) = 0 := by
      rw [roundHalfEven]
      norm_num
    rw [hr]
    norm_num
  have h0' : decimalRound18 ((0 : ℚ)) = some 0 := by
    have := h0
    rwa [show ((0 : ℚ) * 1) = (0 : ℚ) by norm_num] at this
  refine ⟨h0, claim8_price_application.2.2.1 0 1 0 h0, ?_⟩
  have := claim8_price_application.2.2.2.2 0 0 h0'
  exact this

/-- Embeds `WalletBalancesRaw` of `typing.py`: wallet → `TokenBalances`. -/
abbrev WalletBalancesRaw := Dct TokenBalances

/-- Embeds `PortfolioBalances` of `typing.py`:
wallet → category → token → balance. -/
abbrev PortfolioBalances := Dct WalletBalances

/-- Embeds `PortfolioBalancesByCategory` of `typing.py`:
category → wallet → token → balance. -/
abbrev PortfolioBalancesByCategory := Dct WalletBalancesRaw

/-- Two-level lookup in a nested dict (an absent outer key reads as an
empty inner dict). -/
def bget (m : Dct (Dct TokenBalances)) (a b : String) : Option TokenBalances :=
  Dct.get? (Dct.getD m a []) b

/-- Two-level defaulted lookup in a nested dict. -/
def bgetD (m : Dct (Dct TokenBalances)) (a b : String) : TokenBalances :=
  Dct.getD (Dct.getD m a []) b []

/-- The statement `m[a][b] += tb` on a nested (checksum) defaultdict: the
outer miss creates the inner dict, the `+=` reads the inner default and
stores the `TokenBalances.__add__` sum back. -/
def accStep (m : Dct (Dct TokenBalances)) (a b : String)
    (tb : TokenBalances) : Dct (Dct TokenBalances) :=
  Dct.set m a (Dct.set (Dct.getD m a []) b
    (TokenBalances.add (bgetD m a b) tb))

/-- Embeds `PortfolioBalances.inverted`: for each wallet, for each truthy
label entry, `inverted[label][wallet] += tbalances`, starting from an empty
`PortfolioBalancesByCategory`. -/
def PortfolioBalances.inverted (p : PortfolioBalances) :
    PortfolioBalancesByCategory :=
  List.foldl (fun inv wkv =>
    List.foldl (fun inv lkv =>
      if TokenBalances.isTruthy lkv.2 then accStep inv lkv.1 wkv.1 lkv.2
      else inv) inv wkv.2) [] p

/-- Embeds the statement `inverted[wallet][label] += tbalances` of
`PortfolioBalancesByCategory.invert`: the outer read is an unvalidated
checksum-defaultdict access, while the inner read and write go through the
validated `WalletBalances.__getitem__` and `__setitem__`. -/
def invertStep (inv : PortfolioBalances) (l w : String)
    (tb : TokenBalances) : Except PErr PortfolioBalances :=
  match WalletBalances.getItem (Dct.getD inv w []) l with
  | .error e => .error e
  | .ok (cur, wb1) =>
    match WalletBalances.setItem wb1 l (TokenBalances.add cur tb) with
    | .error e => .error e
    | .ok wb2 => .ok (Dct.set inv w wb2)

/-- Embeds `PortfolioBalancesByCategory.invert`: for each label, for each
truthy wallet entry, `inverted[wallet][label] += tbalances`. -/
def PortfolioBalancesByCategory.invert (c : PortfolioBalancesByCategory) :
    Except PErr PortfolioBalances :=
  List.foldlM (fun inv lkv =>
    List.foldlM (fun inv wkv =>
      if TokenBalances.isTruthy wkv.2 then invertStep inv lkv.1 wkv.1 wkv.2
      else pure inv) inv lkv.2) [] c

/-- The unvalidated value-level computation of `invert` (used to factor the
proofs: on valid labels `invert` returns exactly this). -/
def invertPure (c : PortfolioBalancesByCategory) : PortfolioBalances :=
  List.foldl (fun inv lkv =>
    List.foldl (fun inv wkv =>
      if TokenBalances.isTruthy wkv.2 then accStep inv wkv.1 lkv.1 wkv.2
      else inv) inv lkv.2) [] c

/-- Entry triples (outer key, inner key, value) of a nested dict, in
iteration order. -/
def flatten (m : Dct (Dct TokenBalances)) :
    List (String × String × TokenBalances) :=
  m.flatMap (fun akv => akv.2.map (fun bkv => (akv.1, bkv.1, bkv.2)))

/-- Swap the two coordinates of flattened entries. -/
def transposeEntries (es : List (String × String × TokenBalances)) :
    List (String × String × TokenBalances) :=
  es.map (fun e => (e.2.1, e.1, e.2.2))

/-- The shared shape of both inversion loops: fold entries into an
accumulator by `m[a][b] += tb`, skipping falsy values. -/
def accumulate (es : List (String × String × TokenBalances))
    (init : Dct (Dct TokenBalances)) : Dct (Dct TokenBalances) :=
  match es with
  | [] => init
  | e :: t =>
      accumulate t
        (if TokenBalances.isTruthy e.2.2 then accStep init e.1 e.2.1 e.2.2
        else init)

/-- Match on the pair of keys of a flattened entry. -/
def pairMatch (a b : String) (e : String × String × TokenBalances) : Bool :=
  decide (e.1 = a) && decide (e.2.1 = b)

/-- A `TokenBalances` with no zero entry: nonempty, unique keys, and every
stored Balance truthy. -/
def TokenBalances.pruned (t : TokenBalances) : Prop :=
  t ≠ [] ∧ Dct.WF t ∧ ∀ kv ∈ t, Balance.isTruthy kv.2 = true

/-- A non-zero-pruned `PortfolioBalances`: unique keys at every level, no
empty sub-container, only valid category labels (an invariant every
`WalletBalances` enforces on write), and no zero Money entry. -/
def prunedPB (p : PortfolioBalances) : Prop :=
  Dct.WF p ∧ ∀ wkv ∈ p, wkv.2 ≠ [] ∧ Dct.WF wkv.2 ∧
    ∀ lkv ∈ wkv.2, WalletBalances.validateItem lkv.1 = true ∧
      TokenBalances.pruned lkv.2

instance (t : TokenBalances) : Decidable (TokenBalances.pruned t) := by
  unfold TokenBalances.pruned
  infer_instance

instance (p : PortfolioBalances) : Decidable (prunedPB p) := by
  unfold prunedPB
  infer_instance

theorem Dct.get?_append {V : Type} (l1 l2 : Dct V) (k : String) :
    Dct.get? (l1 ++ l2) k = (Dct.get? l1 k).or (Dct.get? l2 k) := by
  induction l1 with
  | nil => simp [Dct.get?]
  | cons hd t ih =>
    by_cases hk : hd.1 = k <;> simp [Dct.get?, hk, ih]

theorem Dct.get?_eq_none_of_contains_false {V : Type} {m : Dct V}
    {k : String} (h : Dct.contains m k = false) : Dct.get? m k = none := by
  cases hg : Dct.get? m k with
  | none => rfl
  | some v =>
    rw [Dct.contains, hg] at h
    cases h

theorem Dct.contains_set_iff {V : Type} (m : Dct V) (k k' : String) (v : V) :
    Dct.contains (Dct.set m k v) k' = true ↔
      (Dct.contains m k' = true ∨ k' = k) := by
  by_cases hk : k' = k
  · subst hk
    simp [Dct.contains, Dct.get?_set_self]
  · rw [Dct.contains, Dct.get?_set_ne m v hk]
    simp [Dct.contains, hk]

theorem Dct.mem_set {V : Type} {m : Dct V} {k : String} {v : V}
    {kv : String × V} (h : kv ∈ Dct.set m k v) : kv = (k, v) ∨ kv ∈ m := by
  induction m with
  | nil =>
    simp only [Dct.set, List.mem_singleton] at h
    exact Or.inl h
  | cons hd t ih =>
    by_cases hk : hd.1 = k
    · rw [Dct.set, if_pos hk] at h
      rcases List.mem_cons.mp h with h | h
      · exact Or.inl h
      · exact Or.inr (List.mem_cons.mpr (Or.inr h))
    · rw [Dct.set, if_neg hk] at h
      rcases List.mem_cons.mp h with h | h
      · exact Or.inr (List.mem_cons.mpr (Or.inl h))
      · rcases ih h with h | h
        · exact Or.inl h
        · exact Or.inr (List.mem_cons.mpr (Or.inr h))

theorem TokenBalances.mergeFold_append (t : TokenBalances) :
    ∀ acc : TokenBalances,
    (∀ kv ∈ t, Balance.isTruthy kv.2 = true) →
    (∀ kv ∈ t, Dct.contains acc kv.1 = false) →
    (Dct.keys t).Nodup →
    TokenBalances.mergeFold acc t = acc ++ t := by
  induction t with
  | nil =>
    intro acc _ _ _
    simp [TokenBalances.mergeFold]
  | cons kv rest ih =>
    intro acc htr hc hnd
    have htr0 := htr kv (List.mem_cons_self kv rest)
    have hc0 := hc kv (List.mem_cons_self kv rest)
    have hg0 : Dct.get? acc kv.1 = none :=
      Dct.get?_eq_none_of_contains_false hc0
    rw [TokenBalances.mergeFold, if_pos htr0, hc0]
    simp only [Bool.false_eq_true, if_false]
    rw [Dct.set_eq_append_of_none hg0]
    simp only [Dct.keys, List.map_cons, List.nodup_cons] at hnd
    rw [ih (acc ++ [(kv.1, Balance.mk kv.2.balance kv.2.usd_value)])
      (fun x hx => htr x (List.mem_cons.mpr (Or.inr hx)))
      ?_ hnd.2]
    · simp
    · intro x hx
      rw [Dct.contains, Dct.get?_append,
        Dct.get?_eq_none_of_contains_false (hc x (List.mem_cons.mpr (Or.inr hx)))]
      have hne : kv.1 ≠ x.1 := by
        intro he
        apply hnd.1
        rw [he]
        exact List.mem_map.mpr ⟨x, hx, rfl⟩
      simp [Dct.get?, hne]

/-- Adding a pruned `TokenBalances` to the fresh empty container copies it
verbatim. -/
theorem TokenBalances.add_nil_pruned {t : TokenBalances}
    (h : TokenBalances.pruned t) : TokenBalances.add [] t = t := by
  rw [TokenBalances.add,
    show TokenBalances.copyFold ([] : TokenBalances) ([] : TokenBalances)
      = ([] : TokenBalances) from rfl,
    TokenBalances.mergeFold_append t [] h.2.2 (fun kv _ => rfl) h.2.1]
  simp

theorem TokenBalances.pruned_isTruthy {t : TokenBalances}
    (h : TokenBalances.pruned t) : TokenBalances.isTruthy t = true := by
  rcases h with ⟨hne, _, htr⟩
  cases t with
  | nil => exact absurd rfl hne
  | cons kv rest =>
    rw [TokenBalances.isTruthy]
    simp [htr kv (List.mem_cons_self kv rest)]

theorem bgetD_eq_bget (m : Dct (Dct TokenBalances)) (a b : String) :
    bgetD m a b = (bget m a b).getD [] := rfl

theorem bget_accStep_self (m : Dct (Dct TokenBalances)) (a b : String)
    (tb : TokenBalances) :
    bget (accStep m a b tb) a b =
      some (TokenBalances.add (bgetD m a b) tb) := by
  rw [bget, accStep, Dct.getD_eq_of_get? [] (Dct.get?_set_self m a _),
    Dct.get?_set_self]

theorem bget_accStep_ne (m : Dct (Dct TokenBalances)) {a b a' b' : String}
    (tb : TokenBalances) (h : ¬(a' = a ∧ b' = b)) :
    bget (accStep m a b tb) a' b' = bget m a' b' := by
  by_cases ha : a' = a
  · subst ha
    have hb : b' ≠ b := fun hb => h ⟨rfl, hb⟩
    rw [bget, accStep, Dct.getD_eq_of_get? [] (Dct.get?_set_self m a' _),
      Dct.get?_set_ne _ _ hb, bget]
  · rw [bget, accStep, Dct.getD, Dct.get?_set_ne _ _ ha, bget, Dct.getD]

/-- Well-formedness of a nested dict: unique keys at both levels. -/
def WF2 (m : Dct (Dct TokenBalances)) : Prop :=
  Dct.WF m ∧ ∀ kv ∈ m, Dct.WF kv.2

theorem WF2_accStep {m : Dct (Dct TokenBalances)} (h : WF2 m)
    (a b : String) (tb : TokenBalances) : WF2 (accStep m a b tb) := by
  constructor
  · exact Dct.WF_set h.1 a _
  · intro kv hkv
    rcases Dct.mem_set hkv with hkv | hkv
    · rw [hkv]
      apply Dct.WF_set ?_ b _
      cases hg : Dct.get? m a with
      | some inner =>
        rw [Dct.getD_eq_of_get? [] hg]
        exact h.2 (a, inner) (Dct.mem_of_get?_eq_some hg)
      | none =>
        rw [Dct.getD_eq_default [] hg]
        exact List.nodup_nil
    · exact h.2 kv hkv

theorem WF2_accumulate (es : List (String × String × TokenBalances)) :
    ∀ init : Dct (Dct TokenBalances), WF2 init → WF2 (accumulate es init) := by
  induction es with
  | nil => intro init h; exact h
  | cons e rest ih =>
    intro init h
    rw [accumulate]
    by_cases htv : TokenBalances.isTruthy e.2.2 = true
    · rw [if_pos htv]
      exact ih _ (WF2_accStep h e.1 e.2.1 e.2.2)
    · rw [if_neg htv]
      exact ih _ h

theorem accumulate_bget (es : List (String × String × TokenBalances))
    (hnd : (es.map (fun e => (e.1, e.2.1))).Nodup)
    (htr : ∀ e ∈ es, TokenBalances.isTruthy e.2.2 = true) :
    ∀ (init : Dct (Dct TokenBalances)) (a b : String),
    bget (accumulate es init) a b =
      (match es.find? (pairMatch a b) with
      | some e => some (TokenBalances.add (bgetD init a b) e.2.2)
      | none => bget init a b) := by
  induction es with
  | nil =>
    intro init a b
    simp [accumulate, List.find?]
  | cons e rest ih =>
    intro init a b
    have hnd' : (rest.map (fun x => (x.1, x.2.1))).Nodup :=
      (List.nodup_cons.mp hnd).2
    have hmem : (e.1, e.2.1) ∉ rest.map (fun x => (x.1, x.2.1)) :=
      (List.nodup_cons.mp hnd).1
    have htr0 := htr e (List.mem_cons_self e rest)
    have htr' : ∀ x ∈ rest, TokenBalances.isTruthy x.2.2 = true :=
      fun x hx => htr x (List.mem_cons.mpr (Or.inr hx))
    rw [accumulate, if_pos htr0,
      ih hnd' htr' (accStep init e.1 e.2.1 e.2.2) a b]
    by_cases hp : pairMatch a b e = true
    · have he : e.1 = a ∧ e.2.1 = b := by
        have := hp
        rw [pairMatch, Bool.and_eq_true, decide_eq_true_eq, decide_eq_true_eq]
          at this
        exact this
      have hrest : rest.find? (pairMatch a b) = none := by
        rw [List.find?_eq_none]
        intro x hx hpx
        rw [pairMatch, Bool.and_eq_true, decide_eq_true_eq, decide_eq_true_eq]
          at hpx
        apply hmem
        rw [he.1, he.2]
        exact List.mem_map.mpr ⟨x, hx, by rw [hpx.1, hpx.2]⟩
      rw [hrest, List.find?_cons_of_pos rest hp, ← he.1, ← he.2]
      exact bget_accStep_self init e.1 e.2.1 e.2.2
    · have he : ¬(a = e.1 ∧ b = e.2.1) := by
        intro hcon
        apply hp
        rw [pairMatch, Bool.and_eq_true, decide_eq_true_eq, decide_eq_true_eq]
        exact ⟨hcon.1.symm, hcon.2.symm⟩
      have hbg : bget (accStep init e.1 e.2.1 e.2.2) a b = bget init a b :=
        bget_accStep_ne init e.2.2 he
      have hbgD : bgetD (accStep init e.1 e.2.1 e.2.2) a b = bgetD init a b := by
        rw [bgetD_eq_bget, bgetD_eq_bget, hbg]
      rw [List.find?_cons_of_neg rest hp]
      cases hf : rest.find? (pairMatch a b) with
      | some x => rw [hbgD]
      | none => rw [hbg]

theorem accumulate_contains (es : List (String × String × TokenBalances))
    (htr : ∀ e ∈ es, TokenBalances.isTruthy e.2.2 = true) :
    ∀ (init : Dct (Dct TokenBalances)) (a : String),
    Dct.contains (accumulate es init) a = true ↔
      (Dct.contains init a = true ∨ ∃ e ∈ es, e.1 = a) := by
  induction es with
  | nil =>
    intro init a
    simp [accumulate]
  | cons e rest ih =>
    intro init a
    have htr0 := htr e (List.mem_cons_self e rest)
    have htr' : ∀ x ∈ rest, TokenBalances.isTruthy x.2.2 = true :=
      fun x hx => htr x (List.mem_cons.mpr (Or.inr hx))
    rw [accumulate, if_pos htr0, ih htr' (accStep init e.1 e.2.1 e.2.2) a]
    have hstep : Dct.contains (accStep init e.1 e.2.1 e.2.2) a = true ↔
        (Dct.contains init a = true ∨ a = e.1) := by
      rw [accStep]
      exact Dct.contains_set_iff init e.1 a _
    rw [hstep]
    constructor
    · rintro ((hc | hea) | ⟨x, hx, hxa⟩)
      · exact Or.inl hc
      · exact Or.inr ⟨e, List.mem_cons_self e rest, hea.symm⟩
      · exact Or.inr ⟨x, List.mem_cons.mpr (Or.inr hx), hxa⟩
    · rintro (hc | ⟨x, hx, hxa⟩)
      · exact Or.inl (Or.inl hc)
      · rcases List.mem_cons.mp hx with hx | hx
        · subst hx
          exact Or.inl (Or.inr hxa.symm)
        · exact Or.inr ⟨x, hx, hxa⟩

theorem find?_flatten_inner (a b : String) (inner : Dct TokenBalances) :
    List.find? (pairMatch a b) (inner.map (fun bkv => (a, bkv.1, bkv.2))) =
      (Dct.get? inner b).map (fun t => (a, b, t)) := by
  induction inner with
  | nil => simp [Dct.get?]
  | cons hd t ih =>
    by_cases hk : hd.1 = b
    · rw [List.map_cons,
        List.find?_cons_of_pos _ (by simp [pairMatch, hk]),
        Dct.get?, if_pos hk]
      simp [hk]
    · rw [List.map_cons,
        List.find?_cons_of_neg _ (by simp [pairMatch, hk]),
        Dct.get?, if_neg hk, ih]

theorem mem_keys_of_mem_flatten {m : Dct (Dct TokenBalances)}
    {e : String × String × TokenBalances} (h : e ∈ flatten m) :
    e.1 ∈ Dct.keys m := by
  rw [flatten] at h
  rcases List.mem_flatMap.mp h with ⟨akv, hak, he⟩
  rcases List.mem_map.mp he with ⟨bkv, hbk, hbe⟩
  rw [← hbe]
  exact List.mem_map.mpr ⟨akv, hak, rfl⟩

theorem flatten_find? (m : Dct (Dct TokenBalances)) (a b : String) :
    WF2 m →
    (flatten m).find? (pairMatch a b) =
      (bget m a b).map (fun t => (a, b, t)) := by
  induction m with
  | nil =>
    intro _
    simp [flatten, bget, Dct.getD, Dct.get?]
  | cons akv rest ih =>
    intro hwf
    obtain ⟨a0, inner⟩ := akv
    have hnod := hwf.1
    simp only [Dct.WF, Dct.keys, List.map_cons, List.nodup_cons] at hnod
    have hwfr : WF2 rest :=
      ⟨hnod.2, fun kv hkv => hwf.2 kv (List.mem_cons.mpr (Or.inr hkv))⟩
    rw [flatten, List.flatMap_cons, List.find?_append]
    rw [show (rest.flatMap fun akv => akv.2.map fun bkv => (akv.1, bkv.1, bkv.2))
      = flatten rest from rfl]
    rw [ih hwfr]
    by_cases ha : a0 = a
    · subst ha
      rw [find?_flatten_inner a0 b inner]
      have hbg : bget ((a0, inner) :: rest) a0 b = Dct.get? inner b := by
        rw [bget, Dct.getD, Dct.get?, if_pos rfl]
        rfl
      rw [hbg]
      cases hg : Dct.get? inner b with
      | some t => rfl
      | none =>
        have hrest : bget rest a0 b = none := by
          rw [bget, Dct.getD, Dct.get?_eq_none_of_not_mem hnod.1]
          rfl
        rw [hrest]
        rfl
    · have hleft :
          List.find? (pairMatch a b)
            (inner.map (fun bkv => (a0, bkv.1, bkv.2))) = none := by
        rw [List.find?_eq_none]
        intro x hx hpx
        rcases List.mem_map.mp hx with ⟨bkv, _, hbe⟩
        rw [pairMatch, Bool.and_eq_true, decide_eq_true_eq, decide_eq_true_eq]
          at hpx
        apply ha
        rw [← hbe] at hpx
        exact hpx.1
      rw [hleft]
      have hbg : bget ((a0, inner) :: rest) a b = bget rest a b := by
        rw [bget, bget, Dct.getD, Dct.getD, Dct.get?, if_neg ha]
      rw [hbg]
      rfl

theorem flatten_pairs_nodup (m : Dct (Dct TokenBalances)) :
    WF2 m → ((flatten m).map (fun e => (e.1, e.2.1))).Nodup := by
  induction m with
  | nil =>
    intro _
    simp [flatten]
  | cons akv rest ih =>
    intro hwf
    obtain ⟨a0, inner⟩ := akv
    have hnod := hwf.1
    simp only [Dct.WF, Dct.keys, List.map_cons, List.nodup_cons] at hnod
    have hwfr : WF2 rest :=
      ⟨hnod.2, fun kv hkv => hwf.2 kv (List.mem_cons.mpr (Or.inr hkv))⟩
    have hinner : Dct.WF inner :=
      hwf.2 (a0, inner) (List.mem_cons_self _ _)
    rw [flatten, List.flatMap_cons, List.map_append]
    rw [show (rest.flatMap fun akv => akv.2.map fun bkv => (akv.1, bkv.1, bkv.2))
      = flatten rest from rfl]
    apply List.Nodup.append
    · rw [List.map_map]
      have hmm :
          (inner.map ((fun e : String × String × TokenBalances => (e.1, e.2.1))
            ∘ (fun bkv : String × TokenBalances => (a0, bkv.1, bkv.2)))) =
          (inner.map (·.1)).map (fun b => (a0, b)) := by
        rw [List.map_map]
        rfl
      rw [hmm]
      exact List.Nodup.map (fun x y h => (Prod.ext_iff.mp h).2) hinner
    · exact ih hwfr
    · intro pr hp1 hp2
      rcases List.mem_map.mp hp1 with ⟨x, hx1, hx2⟩
      rcases List.mem_map.mp hx1 with ⟨bkv, _, hbe⟩
      have hpra : pr.1 = a0 := by
        rw [← hx2, ← hbe]
      rcases List.mem_map.mp hp2 with ⟨e, he1, he2⟩
      have hea : e.1 = a0 := by
        have hh : e.1 = pr.1 := congrArg Prod.fst he2
        rw [hh, hpra]
      apply hnod.1
      rw [← hea]
      exact mem_keys_of_mem_flatten he1

theorem mem_flatten_iff {m : Dct (Dct TokenBalances)} (hwf : WF2 m)
    (a b : String) (t : TokenBalances) :
    (a, b, t) ∈ flatten m ↔ bget m a b = some t := by
  constructor
  · intro h
    rw [flatten] at h
    rcases List.mem_flatMap.mp h with ⟨akv, hak, he⟩
    rcases List.mem_map.mp he with ⟨bkv, hbk, hbe⟩
    obtain ⟨h1, h2, h3⟩ : akv.1 = a ∧ bkv.1 = b ∧ bkv.2 = t := by
      simpa [Prod.ext_iff] using hbe
    have hg : Dct.get? m a = some akv.2 := by
      rw [← h1]
      exact Dct.get?_eq_some_of_mem hwf.1 hak
    rw [bget, Dct.getD_eq_of_get? [] hg, ← h2, ← h3]
    exact Dct.get?_eq_some_of_mem (hwf.2 akv hak) hbk
  · intro h
    rw [bget] at h
    cases hg : Dct.get? m a with
    | none =>
      rw [Dct.getD_eq_default [] hg, Dct.get?_nil] at h
      cases h
    | some inner =>
      rw [Dct.getD_eq_of_get? [] hg] at h
      rw [flatten]
      exact List.mem_flatMap.mpr ⟨(a, inner), Dct.mem_of_get?_eq_some hg,
        List.mem_map.mpr ⟨(b, t), Dct.mem_of_get?_eq_some h, rfl⟩⟩

theorem accumulate_append (l1 l2 : List (String × String × TokenBalances)) :
    ∀ init, accumulate (l1 ++ l2) init = accumulate l2 (accumulate l1 init) := by
  induction l1 with
  | nil => intro init; rfl
  | cons e t ih =>
    intro init
    rw [List.cons_append, accumulate, accumulate, ih]

theorem innerFold_eq_accumulate (w : String) (wb : Dct TokenBalances) :
    ∀ init, List.foldl (fun inv lkv =>
      if TokenBalances.isTruthy lkv.2 then accStep inv lkv.1 w lkv.2
      else inv) init wb
    = accumulate (wb.map (fun bkv => (bkv.1, w, bkv.2))) init := by
  induction wb with
  | nil => intro init; rfl
  | cons hd t ih =>
    intro init
    rw [List.foldl_cons, List.map_cons, accumulate, ih]

theorem nestedFold_eq_accumulate (p : Dct (Dct TokenBalances)) :
    ∀ init, List.foldl (fun inv akv =>
      List.foldl (fun inv bkv =>
        if TokenBalances.isTruthy bkv.2 then accStep inv bkv.1 akv.1 bkv.2
        else inv) inv akv.2) init p
    = accumulate (transposeEntries (flatten p)) init := by
  induction p with
  | nil => intro init; rfl
  | cons hd t ih =>
    intro init
    rw [List.foldl_cons, flatten, List.flatMap_cons, transposeEntries,
      List.map_append, accumulate_append, ih]
    rw [show ((t.flatMap fun akv => akv.2.map fun bkv => (akv.1, bkv.1, bkv.2)).map
      (fun e => (e.2.1, e.1, e.2.2))) = transposeEntries (flatten t) from rfl]
    congr 1
    rw [List.map_map]
    exact innerFold_eq_accumulate hd.1 hd.2 init

theorem inverted_eq_accumulate (p : PortfolioBalances) :
    PortfolioBalances.inverted p = accumulate (transposeEntries (flatten p)) [] :=
  nestedFold_eq_accumulate p []

theorem invertPure_eq_accumulate (c : PortfolioBalancesByCategory) :
    invertPure c = accumulate (transposeEntries (flatten c)) [] :=
  nestedFold_eq_accumulate c []

theorem invertStep_ok (inv : PortfolioBalances) (l w : String)
    (tb : TokenBalances) (hl : WalletBalances.validateItem l = true) :
    invertStep inv l w tb = .ok (accStep inv w l tb) := by
  cases hg : Dct.get? (Dct.getD inv w []) l with
  | some cur =>
    have hbd : bgetD inv w l = cur := by
      rw [bgetD, Dct.getD_eq_of_get? [] hg]
    simp only [invertStep, WalletBalances.getItem, if_pos hl, hg,
      WalletBalances.setItem, accStep, hbd]
  | none =>
    have hbd : bgetD inv w l = [] := by
      rw [bgetD, Dct.getD_eq_default [] hg]
    simp only [invertStep, WalletBalances.getItem, if_pos hl, hg,
      WalletBalances.setItem, accStep, hbd, Dct.set_set_same]

theorem invert_inner_ok (l : String)
    (hl : WalletBalances.validateItem l = true) (bucket : Dct TokenBalances) :
    ∀ inv, List.foldlM (fun inv wkv =>
        if TokenBalances.isTruthy wkv.2 then invertStep inv l wkv.1 wkv.2
        else pure inv) inv bucket
      = .ok (List.foldl (fun inv wkv =>
          if TokenBalances.isTruthy wkv.2 then accStep inv wkv.1 l wkv.2
          else inv) inv bucket) := by
  induction bucket with
  | nil => intro inv; rfl
  | cons hd t ih =>
    intro inv
    rw [List.foldlM_cons, List.foldl_cons]
    by_cases htv : TokenBalances.isTruthy hd.2 = true
    · rw [if_pos htv, if_pos htv, invertStep_ok inv l hd.1 hd.2 hl]
      exact ih _
    · rw [if_neg htv, if_neg htv]
      exact ih inv

theorem invert_outer_ok (c : PortfolioBalancesByCategory) :
    ∀ inv, (∀ kv ∈ c, WalletBalances.validateItem kv.1 = true) →
    List.foldlM (fun inv lkv =>
      List.foldlM (fun inv wkv =>
        if TokenBalances.isTruthy wkv.2 then invertStep inv lkv.1 wkv.1 wkv.2
        else pure inv) inv lkv.2) inv c
    = .ok (List.foldl (fun inv lkv =>
        List.foldl (fun inv wkv =>
          if TokenBalances.isTruthy wkv.2 then accStep inv wkv.1 lkv.1 wkv.2
          else inv) inv lkv.2) inv c) := by
  induction c with
  | nil => intro inv _; rfl
  | cons hd t ih =>
    intro inv hl
    rw [List.foldlM_cons,
      invert_inner_ok hd.1 (hl hd (List.mem_cons_self hd t)) hd.2 inv,
      List.foldl_cons]
    exact ih _ (fun kv hkv => hl kv (List.mem_cons.mpr (Or.inr hkv)))

theorem invert_eq_invertPure (c : PortfolioBalancesByCategory)
    (hl : ∀ kv ∈ c, WalletBalances.validateItem kv.1 = true) :
    PortfolioBalancesByCategory.invert c = .ok (invertPure c) :=
  invert_outer_ok c [] hl

theorem find?_congr' {α : Type} (p q : α → Bool) (h : ∀ x, p x = q x)
    (l : List α) : l.find? p = l.find? q := by
  induction l with
  | nil => rfl
  | cons hd t ih =>
    by_cases hq : q hd = true
    · rw [List.find?_cons_of_pos _ (by rw [h hd]; exact hq),
        List.find?_cons_of_pos _ hq]
    · rw [List.find?_cons_of_neg _ (by rw [h hd]; exact hq),
        List.find?_cons_of_neg _ hq, ih]

theorem transpose_find? (m : Dct (Dct TokenBalances)) (hwf : WF2 m)
    (a b : String) :
    (transposeEntries (flatten m)).find? (pairMatch a b) =
      (bget m b a).map (fun t => (a, b, t)) := by
  rw [transposeEntries, List.find?_map]
  have hcg : ((flatten m).find?
      ((pairMatch a b) ∘ (fun e => (e.2.1, e.1, e.2.2))))
      = (flatten m).find? (pairMatch b a) := by
    apply find?_congr'
    intro x
    show pairMatch a b (x.2.1, x.1, x.2.2) = pairMatch b a x
    rw [pairMatch, pairMatch]
    exact Bool.and_comm _ _
  rw [hcg, flatten_find? m b a hwf, Option.map_map]
  rfl

theorem transposeAcc_truthy (m : Dct (Dct TokenBalances))
    (hpr : ∀ e ∈ flatten m, TokenBalances.pruned e.2.2) :
    ∀ e ∈ transposeEntries (flatten m), TokenBalances.isTruthy e.2.2 = true := by
  intro e he
  rcases List.mem_map.mp he with ⟨x, hx, hxe⟩
  rw [← hxe]
  exact TokenBalances.pruned_isTruthy (hpr x hx)

theorem transposeAcc_pairs_nodup (m : Dct (Dct TokenBalances)) (hwf : WF2 m) :
    ((transposeEntries (flatten m)).map (fun e => (e.1, e.2.1))).Nodup := by
  rw [transposeEntries, List.map_map]
  have heq : ((flatten m).map
      ((fun e : String × String × TokenBalances => (e.1, e.2.1))
        ∘ (fun e : String × String × TokenBalances => (e.2.1, e.1, e.2.2))))
      = ((flatten m).map (fun e => (e.1, e.2.1))).map (fun pr => (pr.2, pr.1)) := by
    rw [List.map_map]
    rfl
  rw [heq]
  exact List.Nodup.map
    (fun x y h => Prod.ext_iff.mpr ⟨(Prod.ext_iff.mp h).2, (Prod.ext_iff.mp h).1⟩)
    (flatten_pairs_nodup m hwf)

theorem transposeAcc_bget (m : Dct (Dct TokenBalances)) (hwf : WF2 m)
    (hpr : ∀ e ∈ flatten m, TokenBalances.pruned e.2.2) (a b : String) :
    bget (accumulate (transposeEntries (flatten m)) []) a b = bget m b a := by
  rw [accumulate_bget (transposeEntries (flatten m))
    (transposeAcc_pairs_nodup m hwf) (transposeAcc_truthy m hpr) [] a b,
    transpose_find? m hwf a b]
  cases hbg : bget m b a with
  | none => rfl
  | some t =>
    have hmem : (b, a, t) ∈ flatten m := (mem_flatten_iff hwf b a t).mpr hbg
    have hprt := hpr (b, a, t) hmem
    rw [show bgetD ([] : Dct (Dct TokenBalances)) a b = ([] : TokenBalances)
      from rfl]
    exact congrArg some (TokenBalances.add_nil_pruned hprt)

theorem transposeAcc_contains (m : Dct (Dct TokenBalances)) (hwf : WF2 m)
    (hpr : ∀ e ∈ flatten m, TokenBalances.pruned e.2.2) (a : String) :
    (Dct.contains (accumulate (transposeEntries (flatten m)) []) a = true) ↔
      ∃ b t, bget m b a = some t := by
  rw [accumulate_contains (transposeEntries (flatten m))
    (transposeAcc_truthy m hpr) [] a]
  constructor
  · rintro (hc | ⟨e, he, hea⟩)
    · simp [Dct.contains, Dct.get?] at hc
    · rcases List.mem_map.mp he with ⟨x, hx, hxe⟩
      obtain ⟨xb, xa, xt⟩ := x
      have hxa : xa = a := by
        rw [← hxe] at hea
        exact hea
      refine ⟨xb, xt, ?_⟩
      rw [← hxa]
      exact (mem_flatten_iff hwf xb xa xt).mp hx
  · rintro ⟨b, t, hbt⟩
    right
    exact ⟨(a, b, t),
      List.mem_map.mpr ⟨(b, a, t), (mem_flatten_iff hwf b a t).mpr hbt, rfl⟩,
      rfl⟩

theorem bool_eq_of_iff {a b : Bool} (h : (a = true) ↔ (b = true)) : a = b := by
  cases a <;> cases b
  · rfl
  · exact absurd (h.mpr rfl) (by simp)
  · exact absurd (h.mp rfl) (by simp)
  · rfl

/-- C5: for every non-zero-pruned `PortfolioBalances` `p` (no zero Money
entry, no empty sub-container, unique keys, categories valid — the shape
every wallet-keyed aggregate the orchestrators build has), inverting `p` to
the category-first `PortfolioBalancesByCategory` view and inverting back
succeeds and yields a value equal to `p` under Python dict equality: the
same wallets are present, and every wallet maps to the same category →
token-balances content. Inversion neither introduces nor drops any non-zero
entry. -/
theorem claim5_invert_roundtrip (p : PortfolioBalances) (hp : prunedPB p) :
    ∃ q, PortfolioBalancesByCategory.invert (PortfolioBalances.inverted p) =
        .ok q ∧
      (∀ w, Dct.contains q w = Dct.contains p w) ∧
      (∀ w l, bget q w l = bget p w l) := by
  have hwfp : WF2 p := ⟨hp.1, fun kv hkv => (hp.2 kv hkv).2.1⟩
  have hflat : ∀ e ∈ flatten p,
      WalletBalances.validateItem e.2.1 = true ∧ TokenBalances.pruned e.2.2 := by
    intro e he
    rw [flatten] at he
    rcases List.mem_flatMap.mp he with ⟨akv, hak, he2⟩
    rcases List.mem_map.mp he2 with ⟨bkv, hbk, hbe⟩
    have hres := (hp.2 akv hak).2.2 bkv hbk
    rw [← hbe]
    exact hres
  have hprp : ∀ e ∈ flatten p, TokenBalances.pruned e.2.2 :=
    fun e he => (hflat e he).2
  have hwfnil : WF2 ([] : Dct (Dct TokenBalances)) :=
    ⟨List.nodup_nil, fun kv h => absurd h (List.not_mem_nil kv)⟩
  have hinv : PortfolioBalances.inverted p =
      accumulate (transposeEntries (flatten p)) [] := inverted_eq_accumulate p
  have hwfm : WF2 (PortfolioBalances.inverted p) := by
    rw [hinv]
    exact WF2_accumulate _ [] hwfnil
  have hbm : ∀ a b, bget (PortfolioBalances.inverted p) a b = bget p b a := by
    intro a b
    rw [hinv]
    exact transposeAcc_bget p hwfp hprp a b
  have hprm : ∀ e ∈ flatten (PortfolioBalances.inverted p),
      TokenBalances.pruned e.2.2 := by
    intro e he
    obtain ⟨a, b, t⟩ := e
    have hbt : bget (PortfolioBalances.inverted p) a b = some t :=
      (mem_flatten_iff hwfm a b t).mp he
    rw [hbm a b] at hbt
    exact hprp (b, a, t) ((mem_flatten_iff hwfp b a t).mpr hbt)
  have hlab : ∀ kv ∈ PortfolioBalances.inverted p,
      WalletBalances.validateItem kv.1 = true := by
    intro kv hkv
    have hc : Dct.contains (PortfolioBalances.inverted p) kv.1 = true :=
      Dct.contains_of_mem_keys (List.mem_map.mpr ⟨kv, hkv, rfl⟩)
    rw [hinv] at hc
    rcases (transposeAcc_contains p hwfp hprp kv.1).mp hc with ⟨b, t, hbt⟩
    have hmem : (b, kv.1, t) ∈ flatten p := (mem_flatten_iff hwfp b kv.1 t).mpr hbt
    exact (hflat (b, kv.1, t) hmem).1
  have hpcont : ∀ w, (Dct.contains p w = true) ↔ ∃ l t, bget p w l = some t := by
    intro w
    constructor
    · intro hc
      rcases (Dct.contains_iff p w).mp hc with ⟨wb, hg⟩
      have hpw := hp.2 (w, wb) (Dct.mem_of_get?_eq_some hg)
      cases wb with
      | nil => exact absurd rfl hpw.1
      | cons lkv rest =>
        refine ⟨lkv.1, lkv.2, ?_⟩
        rw [bget, Dct.getD_eq_of_get? [] hg]
        simp [Dct.get?]
    · rintro ⟨l, t, hbt⟩
      rw [bget] at hbt
      cases hg : Dct.get? p w with
      | none =>
        rw [Dct.getD_eq_default [] hg, Dct.get?_nil] at hbt
        cases hbt
      | some wb =>
        rw [Dct.contains, hg]
        rfl
  refine ⟨invertPure (PortfolioBalances.inverted p),
    invert_eq_invertPure _ hlab, ?_, ?_⟩
  · intro w
    apply bool_eq_of_iff
    rw [invertPure_eq_accumulate]
    rw [transposeAcc_contains (PortfolioBalances.inverted p) hwfm hprm w]
    rw [hpcont w]
    constructor
    · rintro ⟨l, t, hbt⟩
      rw [hbm l w] at hbt
      exact ⟨l, t, hbt⟩
    · rintro ⟨l, t, hbt⟩
      refine ⟨l, t, ?_⟩
      rw [hbm l w]
      exact hbt
  · intro w l
    rw [invertPure_eq_accumulate,
      transposeAcc_bget (PortfolioBalances.inverted p) hwfm hprm w l, hbm l w]

theorem claim5_invert_roundtrip_witness :
    prunedPB [("0xWallet", [("assets", [("TOK", Balance.mk 1 2)])]),
      ("0xOther", [("debt", [("TOK2", Balance.mk 3 4)])])] ∧
    ∃ q, PortfolioBalancesByCategory.invert
        (PortfolioBalances.inverted
          [("0xWallet", [("assets", [("TOK", Balance.mk 1 2)])]),
            ("0xOther", [("debt", [("TOK2", Balance.mk 3 4)])])]) = .ok q ∧
      (∀ w, Dct.contains q w =
        Dct.contains [("0xWallet", [("assets", [("TOK", Balance.mk 1 2)])]),
          ("0xOther", [("debt", [("TOK2", Balance.mk 3 4)])])] w) ∧
      (∀ w l, bget q w l =
        bget [("0xWallet", [("assets", [("TOK", Balance.mk 1 2)])]),
          ("0xOther", [("debt", [("TOK2", Balance.mk 3 4)])])] w l) :=
  ⟨by decide, claim5_invert_roundtrip _ (by decide)⟩
